import Mathlib

/-!
Shallow embedding of the news-node fetch/normalize/dedup/store pipeline with
background-job tracking, translated from the repository source:

* `src/src/lib/jobs.ts`            — job tracker (`setJobStatus`, `getJobStatus`, sweep)
* `src/src/lib/log.ts`             — event broadcaster (`setBroadcastFn`/`broadcast`)
* `src/unnamed/part_012`           — store writer (`add`, `addUnique`)
* `src/unnamed/part_011`           — multi-source fetch (`fetchAllLocalSources`)
* `src/unnamed/part_000` (lib/sources.ts) and
  `src/src/routes/route-sources.ts` — source-registry merge (`getMergedSources`)
* `src/node-app/src/routes/route-sources.ts` — background single-source fetch dispatch

External collaborators (HTTP fetch, per-source-type parser/normalizer, the AI
translator, the zod article schema, the IPFS blob save) are modelled as
environment oracles: arbitrary functions supplied as parameters, returning
`Except` where the TypeScript call can throw.
-/

namespace NousNode

/-- An article record of the local content store (`Article` in `src/types`).
Only the fields the verified claims touch are modelled; `publishedAt` is the
normalized canonical timestamp (milliseconds) or `none` for null/absent. -/
structure Article where
  id : String
  url : String
  title : String
  content : Option String
  publishedAt : Option Int
  ipfsHash : Option String
deriving DecidableEq

/-- A configured source (`Source` in `src/types`).  The typed fields the
pipeline reads are explicit; remaining per-type configuration fields are an
association list of string keys to values, mirroring a JS object's own keys. -/
structure Source where
  name : String
  endpoint : String
  enabled : Bool
  extra : List (String × String)
deriving DecidableEq

/-! ## Job tracker — `src/src/lib/jobs.ts` -/

inductive JobStatus where
  | queued
  | running
  | done
  | error
deriving DecidableEq

/-- One row of `jobStatusMap`. -/
structure JobRow where
  source : String
  status : JobStatus
  message : Option String
  createdAt : Int
deriving DecidableEq

/-- `jobStatusMap` as an insertion-ordered key/value list (JS `Map`). -/
def JobMap := List (String × JobRow)

instance : DecidableEq JobMap := by
  unfold JobMap
  infer_instance

/-- JS `Map.set`: replace the value in place if the key exists, else append. -/
def mapSet (m : JobMap) (k : String) (v : JobRow) : JobMap :=
  match m with
  | [] => [(k, v)]
  | (k', v') :: rest =>
    if k' = k then (k, v) :: rest else (k', v') :: mapSet rest k v

/-- `setJobStatus(jobId, status, source, message?)`:
`jobStatusMap.set(jobId, { status, source, message, createdAt: Date.now() })`.
`now` is the value of `Date.now()` at the call. -/
def setJobStatus (m : JobMap) (jobId : String) (status : JobStatus)
    (source : String) (message : Option String) (now : Int) : JobMap :=
  mapSet m jobId ⟨source, status, message, now⟩

/-- `getJobStatus(jobId)`: `jobStatusMap.get(jobId)`. -/
def getJobStatus (m : JobMap) (jobId : String) : Option JobRow :=
  (m.find? (fun kv => decide (kv.1 = jobId))).map (fun kv => kv.2)

/-- `job.status === "done" || job.status === "error"` (the sweep's condition). -/
def isTerminalStatus : JobStatus → Bool
  | JobStatus.done => true
  | JobStatus.error => true
  | _ => false

/-- The body of the `setInterval` sweep: delete every row whose status is
`done` or `error`; all other rows are kept. -/
def sweepJobs (m : JobMap) : JobMap :=
  m.filter (fun kv => !(isTerminalStatus kv.2.status))

/-- The sweep interval, `1000 * 60 * 10` milliseconds. -/
def retentionWindowMs : Int := 1000 * 60 * 10

/-! ## Event broadcaster — `src/src/lib/log.ts` -/

/-- An event payload (opaque to the broadcaster). -/
def Event := String

/-- A sink (`broadcastFn`); applying it may throw. -/
def Sink := Event → Except String Unit

/-- The body of the `try` block in `broadcast`:
`if (broadcastFn) broadcastFn(event)`. -/
def broadcastAttempt (sink : Option Sink) (e : Event) : Except String Unit :=
  match sink with
  | some f => f e
  | none => Except.ok ()

/-- `broadcast(event)`: the attempt wrapped in `try { ... } catch {}`. -/
def broadcast (sink : Option Sink) (e : Event) : Except String Unit :=
  match broadcastAttempt sink e with
  | Except.ok _ => Except.ok ()
  | Except.error _ => Except.ok ()

/-! ## Store writer — `src/unnamed/part_012` (`add`, `addUnique`)

The local articles store is an OrbitDB documents store opened with
`indexBy: "url"` (`src/src/p2p/orbitdb/stores/articles/local/setup.ts`), so
`db.get` and `db.put` are keyed by `url`. -/

/-- The local article store: its documents in insertion order, keyed by url. -/
structure LocalStore where
  docs : List Article
deriving DecidableEq

/-- `db.get(url)`. -/
def storeGet (st : LocalStore) (url : String) : Option Article :=
  st.docs.find? (fun a => decide (a.url = url))

/-- `db.put(doc)`: replace the record with the same url, else append. -/
def storePut (st : LocalStore) (doc : Article) : LocalStore :=
  if st.docs.any (fun a => decide (a.url = doc.url)) then
    ⟨st.docs.map (fun a => if a.url = doc.url then doc else a)⟩
  else
    ⟨st.docs ++ [doc]⟩

/-- Environment for `add`: whether the Helia singleton is initialized
(`getHelia()` throws when it is not), and the outcome of
`saveArticleToIPFS` (which may throw, or resolve to a cid or to null). -/
structure AddEnv where
  heliaInit : Bool
  saveToIPFS : Article → Except String (Option String)

/-- The `if (helia && doc.content && !doc.ipfsHash)` block of `add`: best-effort
IPFS save; on success stamp the cid, on throw keep the article unchanged. -/
def stampIpfs (env : AddEnv) (doc : Article) : Article :=
  if doc.content.isSome ∧ doc.ipfsHash.isNone then
    match env.saveToIPFS doc with
    | Except.ok (some cid) => { doc with ipfsHash := some cid }
    | Except.ok none => doc
    | Except.error _ => doc
  else doc

/-- Result of `add`: `true` (saved), `null` (duplicate skipped), or `false`
(the early return when `getHelia()` throws). -/
inductive AddResult where
  | added
  | skipped
  | notSaved
deriving DecidableEq

/-- `add(doc, overwrite)` from `src/unnamed/part_012`:
duplicate check first (when `overwrite` is false), then the Helia guard,
then the best-effort IPFS stamp, then `db.put`. -/
def add (env : AddEnv) (st : LocalStore) (doc : Article) (overwrite : Bool) :
    AddResult × LocalStore :=
  if overwrite = false ∧ (storeGet st doc.url).isSome then
    (AddResult.skipped, st)
  else if env.heliaInit = false then
    (AddResult.notSaved, st)
  else
    (AddResult.added, storePut st (stampIpfs env doc))

/-- `addUnique(articles)`: `add(article, false)` for each article in order,
counting the calls that returned a truthy result. -/
def addUnique (env : AddEnv) (st : LocalStore) : List Article → Nat × LocalStore
  | [] => (0, st)
  | a :: rest =>
    let r := add env st a false
    let tail := addUnique env r.2 rest
    ((if r.1 = AddResult.added then 1 else 0) + tail.1, tail.2)

/-- The number of distinct urls in `batch` with no record in `st` — the
"genuinely new urls" of one `addUnique` call. -/
def countNewUrls (st : LocalStore) (batch : List Article) : Nat :=
  (((batch.map (fun a => a.url)).dedup).filter
    (fun u => (storeGet st u).isNone)).length

/-! ## Fetch pipeline — `src/unnamed/part_011` (`fetchAllLocalSources`) -/

/-- Outcome of `await smartFetch(endpoint)` followed by `response.json()`:
either the fetch threw, or it produced a response with a status, an `ok` flag
and a body whose `.json()` may itself throw. -/
inductive HttpOut where
  | threw (msg : String)
  | resp (status : Nat) (ok : Bool) (body : Except String String)

/-- Outcome of `parserFn(rawData, source)`: the parser threw, returned a
non-array value, or returned an array of raw items. -/
inductive ParseOut where
  | threw (msg : String)
  | notArray
  | items (its : List String)

/-- `{ endpoint, error }` as pushed onto the per-source `errors` array. -/
structure ErrEntry where
  endpoint : String
  error : String
deriving DecidableEq

/-- The `{ articles, errors }` value returned by `fetchAllLocalSources`. -/
structure FetchResult where
  articles : List Article
  errors : List ErrEntry
deriving DecidableEq

/-- Environment of external collaborators used by the pipeline.  `fetch`,
`translate` model `smartFetch` and `translateMultipleTitlesAI` (external
services, §6 of the spec).  Modelled from the spec: `parse`, `normalize`,
`normPub` (`normalizePublishedAt`) and `clean` (`cleanArticlesForDB`) live in
`lib/parsers` / `lib/normalizers` which are not under `src/`; per §4.2 they
are source-type-specific functions yielding raw items, a draft article, a
canonical timestamp (or null), and a cleaned batch.  `validate` models
`ArticleSchema.parse`, returning the thrown message for an invalid article. -/
structure PipelineEnv where
  fetch : String → HttpOut
  parse : Source → String → ParseOut
  normalize : Source → String → Article
  normPub : Option Int → Option Int
  translate : List String → String → Except String (List String)
  clean : List Article → List Article
  validate : Article → Option String

/-- The since-cutoff predicate of `fetchAllLocalSources` (part_011 lines
65-67) and `fetchSingleSource` (part_004 lines 96-98):
`(n) => !since || !n.publishedAt || new Date(n.publishedAt) >= since`. -/
def sinceKeep (since : Option Int) (a : Article) : Bool :=
  match since, a.publishedAt with
  | none, _ => true
  | some _, none => true
  | some s, some p => decide (s ≤ p)

/-- The normalize step: `normalizerFn(a, source)` then
`n.publishedAt = normalizePublishedAt(n.publishedAt)`. -/
def normalizeItems (env : PipelineEnv) (src : Source) (its : List String) :
    List Article :=
  its.map (fun it =>
    let n := env.normalize src it
    { n with publishedAt := env.normPub n.publishedAt })

/-- `translated.forEach((t, i) => { normalized[i].title = t; })`: sets the
first `ts.length` titles; throws (TypeError) when the translated list is
longer than the article list. -/
def setTitles (arts : List Article) (ts : List String) :
    Except String (List Article) :=
  if ts.length ≤ arts.length then
    Except.ok ((arts.zip ts).map (fun x => { x.1 with title := x.2 })
      ++ arts.drop ts.length)
  else
    Except.error "TypeError"

/-- The validation loop: `try { ArticleSchema.parse(a); allArticles.push(a) }
catch { errors.push(...) }` over the cleaned batch. -/
def validateLoop (env : PipelineEnv) (ep : String) (arts : List Article) :
    List Article × List ErrEntry :=
  arts.foldl (fun acc a =>
    match env.validate a with
    | none => (acc.1 ++ [a], acc.2)
    | some m =>
      (acc.1, acc.2 ++ [⟨ep, "Invalid article structure from " ++ ep
        ++ ": " ++ m⟩]))
    (([] : List Article), ([] : List ErrEntry))

/-- The body of the per-source `try` block of `fetchAllLocalSources`:
an `Except.error` is a thrown exception reaching the enclosing `catch`. -/
def sourceBody (env : PipelineEnv) (src : Source) (targetLanguage : String)
    (since : Option Int) (skipTranslation : Bool) :
    Except String (List Article × List ErrEntry) :=
  match env.fetch src.endpoint with
  | HttpOut.threw m => Except.error m
  | HttpOut.resp status ok body =>
    if ok = false then
      Except.ok ([], [⟨src.endpoint,
        "HTTP error " ++ toString status ++ " for " ++ src.endpoint⟩])
    else
      match body with
      | Except.error m => Except.error m
      | Except.ok raw =>
        match env.parse src raw with
        | ParseOut.threw m => Except.error m
        | ParseOut.notArray =>
          Except.ok ([], [⟨src.endpoint,
            "Parser did not return an array for " ++ src.endpoint⟩])
        | ParseOut.items its =>
          let normalized := (normalizeItems env src its).filter (sinceKeep since)
          let tr : Except String (List Article × List ErrEntry) :=
            if skipTranslation = false ∧ targetLanguage ≠ ""
                ∧ 0 < normalized.length then
              match env.translate (normalized.map (fun a => a.title))
                  targetLanguage with
              | Except.ok ts =>
                match setTitles normalized ts with
                | Except.ok upd => Except.ok (upd, [])
                | Except.error m => Except.error m
              | Except.error m =>
                Except.ok (normalized, [⟨src.endpoint,
                  "Failed to translate titles for " ++ src.endpoint
                    ++ ": " ++ m⟩])
            else Except.ok (normalized, [])
          match tr with
          | Except.error m => Except.error m
          | Except.ok (arts2, terrs) =>
            let vr := validateLoop env src.endpoint (env.clean arts2)
            Except.ok (vr.1, terrs ++ vr.2)

/-- One iteration of the source loop: the `try` body with its `catch`, which
records `{ endpoint, error: err.message }` and continues. -/
def processSource (env : PipelineEnv) (src : Source) (targetLanguage : String)
    (since : Option Int) (skipTranslation : Bool) :
    List Article × List ErrEntry :=
  match sourceBody env src targetLanguage since skipTranslation with
  | Except.ok r => r
  | Except.error m => ([], [⟨src.endpoint, m⟩])

/-- `fetchAllLocalSources(sources, targetLanguage, since?, skipTranslation)`:
filter to enabled sources, then run each source's pipeline in order,
accumulating `allArticles` and `errors`. -/
def fetchAllLocalSources (env : PipelineEnv) (sources : List Source)
    (targetLanguage : String) (since : Option Int) (skipTranslation : Bool) :
    FetchResult :=
  (sources.filter (fun s => s.enabled)).foldl
    (fun acc s =>
      let r := processSource env s targetLanguage since skipTranslation
      ⟨acc.articles ++ r.1, acc.errors ++ r.2⟩)
    (⟨[], []⟩ : FetchResult)

/-- Source `src` "always fails its HTTP fetch (or its parser does not return
an array)": the fetch throws, or the response is non-2xx, or the body parses
but the source's parser yields a non-array. -/
def failsForSource (env : PipelineEnv) (src : Source) : Prop :=
  (∃ m, env.fetch src.endpoint = HttpOut.threw m)
  ∨ (∃ status body, env.fetch src.endpoint = HttpOut.resp status false body)
  ∨ (∃ status raw, env.fetch src.endpoint
        = HttpOut.resp status true (Except.ok raw)
      ∧ env.parse src raw = ParseOut.notArray)

/-! ## Source registry merge — `src/unnamed/part_000` (lib/sources.ts) and
`src/src/routes/route-sources.ts` (`getMergedSources`) -/

/-- Reading key `k` of a JS object represented as an association list. -/
def lookupField (fields : List (String × String)) (k : String) :
    Option String :=
  (fields.find? (fun kv => decide (kv.1 = k))).map (fun kv => kv.2)

/-- The object spread `{ ...a, ...b }` on the untyped fields: `a`'s keys in
order with `b`'s value where `b` has the key, then `b`'s new keys in order. -/
def unionFields (a b : List (String × String)) : List (String × String) :=
  a.map (fun kv => (kv.1, (lookupField b kv.1).getD kv.2))
    ++ b.filter (fun kv => (lookupField a kv.1).isNone)

/-- `{ ...d, ...p }` on two sources: every typed field of the persisted
source wins; the untyped extras merge shallowly with persisted winning. -/
def mergeSrc (d p : Source) : Source :=
  ⟨p.name, p.endpoint, p.enabled, unionFields d.extra p.extra⟩

/-- The body of the `defaultSources.map` callback of `getMergedSources`:
apply the same-named persisted override when `find` locates one. -/
def overrideOf (persisted : List Source) (d : Source) : Source :=
  match persisted.find? (fun s => decide (s.name = d.name)) with
  | some p => mergeSrc d p
  | none => d

def getMergedSources (defaults persisted : List Source) : List Source :=
  defaults.map (overrideOf persisted)
  ++ persisted.filter (fun s => !(defaults.any (fun d => decide (d.name = s.name))))

/-! ## Background single-source fetch dispatch —
`src/node-app/src/routes/route-sources.ts` (`fetchSingleLocalSourceHandler`) -/

/-- An operation applied to the job map during a job's lifetime: one of the
handler's `setJobStatus` calls, or a firing of the background sweep. -/
inductive JobOp where
  | write (status : JobStatus) (message : Option String) (now : Int)
  | sweep
deriving DecidableEq

/-- Apply one operation for job `id` of source `src`. -/
def applyOp (id src : String) (m : JobMap) : JobOp → JobMap
  | JobOp.write st msg now => setJobStatus m id st src msg now
  | JobOp.sweep => sweepJobs m

/-- Apply a sequence of operations starting from map `m`. -/
def applyOps (id src : String) (ops : List JobOp) (m : JobMap) : JobMap :=
  ops.foldl (applyOp id src) m

/-- The statuses written by a sequence of operations, in order. -/
def writesOf (ops : List JobOp) : List JobStatus :=
  ops.filterMap (fun op =>
    match op with
    | JobOp.write st _ _ => some st
    | JobOp.sweep => none)

/-- The statuses `fetchSingleLocalSourceHandler` writes for a job, in program
order: `queued` before dispatch, `running` at task start, then `done` on
success or `error` when the background task throws. -/
def handlerWrites (ok : Bool) : List JobStatus :=
  [JobStatus.queued, JobStatus.running,
    if ok then JobStatus.done else JobStatus.error]

/-- Position of a status on the queued→running→terminal walk. -/
def statusRank : JobStatus → Nat
  | JobStatus.queued => 0
  | JobStatus.running => 1
  | JobStatus.done => 2
  | JobStatus.error => 2

/-- The status `getJobStatus` observes for job `id` after a sequence of
operations starting from the empty map. -/
def observedStatus (id src : String) (ops : List JobOp) : Option JobStatus :=
  (getJobStatus (applyOps id src ops []) id).map (fun r => r.status)

/-! ## Helper lemmas: the job map -/

theorem find?_mapSet_self (m : JobMap) (k : String) (v : JobRow) :
    (mapSet m k v).find? (fun kv => decide (kv.1 = k)) = some (k, v) := by
  induction m with
  | nil => simp [mapSet]
  | cons h t ih =>
    by_cases hk : h.1 = k
    · cases h with
      | mk k' v' =>
        simp only at hk
        simp [mapSet, hk]
    · cases h with
      | mk k' v' =>
        simp only at hk
        simp [mapSet, hk, List.find?_cons, ih]

theorem find?_mapSet_ne (m : JobMap) (k : String) (v : JobRow) (k2 : String)
    (h : k2 ≠ k) :
    (mapSet m k v).find? (fun kv => decide (kv.1 = k2))
      = m.find? (fun kv => decide (kv.1 = k2)) := by
  have hk2 : ¬(k = k2) := fun hh => h hh.symm
  induction m with
  | nil =>
    simp [mapSet, List.find?_cons, hk2]
  | cons hd t ih =>
    cases hd with
    | mk k' v' =>
      by_cases hk : k' = k
      · subst hk
        simp [mapSet, List.find?_cons, hk2]
      · simp only [mapSet, if_neg hk]
        by_cases hkk2 : k' = k2
        · simp [List.find?_cons, hkk2]
        · simp [List.find?_cons, hkk2, ih]

theorem getJobStatus_setJobStatus_self (m : JobMap) (id : String)
    (st : JobStatus) (src : String) (msg : Option String) (now : Int) :
    getJobStatus (setJobStatus m id st src msg now) id
      = some ⟨src, st, msg, now⟩ := by
  simp [getJobStatus, setJobStatus, find?_mapSet_self]

theorem getJobStatus_setJobStatus_ne (m : JobMap) (id : String)
    (st : JobStatus) (src : String) (msg : Option String) (now : Int)
    (id2 : String) (h : id2 ≠ id) :
    getJobStatus (setJobStatus m id st src msg now) id2
      = getJobStatus m id2 := by
  simp [getJobStatus, setJobStatus, find?_mapSet_ne _ _ _ _ h]

theorem getJobStatus_eq_none_of_not_mem (m : JobMap) (id : String)
    (h : id ∉ m.map Prod.fst) :
    getJobStatus m id = none := by
  have hf : m.find? (fun kv => decide (kv.1 = id)) = none := by
    apply List.find?_eq_none.mpr
    intro kv hkv
    simp only [decide_eq_true_eq]
    intro hc
    exact h (hc ▸ List.mem_map_of_mem Prod.fst hkv)
  simp [getJobStatus, hf]

theorem sweepJobs_keys_subset (t : JobMap) :
    (sweepJobs t).map Prod.fst ⊆ t.map Prod.fst := by
  have h : sweepJobs t
      = t.filter (fun kv => !(isTerminalStatus kv.2.status)) := rfl
  rw [h]
  exact ((List.filter_sublist t).map Prod.fst).subset

theorem getJobStatus_cons_self (k : String) (v : JobRow) (t : JobMap) :
    getJobStatus ((k, v) :: t) k = some v := by
  simp [getJobStatus, List.find?_cons]

theorem getJobStatus_cons_ne (k : String) (v : JobRow) (t : JobMap)
    (id : String) (h : ¬(k = id)) :
    getJobStatus ((k, v) :: t) id = getJobStatus t id := by
  simp [getJobStatus, List.find?_cons, h]

theorem getJobStatus_sweepJobs (m : JobMap) (id : String)
    (hnd : (m.map Prod.fst).Nodup) :
    getJobStatus (sweepJobs m) id
      = match getJobStatus m id with
        | none => none
        | some row =>
          if isTerminalStatus row.status then none else some row := by
  induction m with
  | nil => rfl
  | cons hd t ih =>
    cases hd with
    | mk k v =>
      rw [List.map_cons, List.nodup_cons] at hnd
      have iht := ih hnd.2
      by_cases hterm : isTerminalStatus v.status
      · have hs : sweepJobs ((k, v) :: t) = sweepJobs t := by
          show ((k, v) :: t).filter _ = t.filter _
          rw [List.filter_cons]
          simp [hterm]
        by_cases hk : k = id
        · subst hk
          have h2 : getJobStatus (sweepJobs t) k = none := by
            apply getJobStatus_eq_none_of_not_mem
            intro hmem
            exact hnd.1 (sweepJobs_keys_subset t hmem)
          rw [hs, h2, getJobStatus_cons_self]
          simp [hterm]
        · rw [hs, getJobStatus_cons_ne _ _ _ _ hk, iht]
      · have hs : sweepJobs ((k, v) :: t) = (k, v) :: sweepJobs t := by
          show ((k, v) :: t).filter _ = (k, v) :: t.filter _
          rw [List.filter_cons]
          simp [hterm]
        by_cases hk : k = id
        · subst hk
          rw [hs, getJobStatus_cons_self, getJobStatus_cons_self]
          simp [hterm]
        · rw [hs, getJobStatus_cons_ne _ _ _ _ hk,
            getJobStatus_cons_ne _ _ _ _ hk, iht]

/-- C4 (amended part, helper): the keys of `mapSet m k v`. -/
theorem mapSet_keys (m : JobMap) (k : String) (v : JobRow) :
    (mapSet m k v).map Prod.fst
      = if k ∈ m.map Prod.fst then m.map Prod.fst
        else m.map Prod.fst ++ [k] := by
  induction m with
  | nil => simp [mapSet]
  | cons hd t ih =>
    cases hd with
    | mk k' v' =>
      by_cases hk : k' = k
      · subst hk
        simp [mapSet]
      · have : ¬(k = k') := fun hh => hk hh.symm
        simp only [mapSet, if_neg hk, List.map_cons, List.mem_cons, this,
          false_or, ih]
        by_cases hmem : k ∈ t.map Prod.fst
        · simp [hmem]
        · simp [hmem]

theorem mapSet_keys_nodup (m : JobMap) (k : String) (v : JobRow)
    (hnd : (m.map Prod.fst).Nodup) :
    ((mapSet m k v).map Prod.fst).Nodup := by
  rw [mapSet_keys]
  by_cases hmem : k ∈ m.map Prod.fst
  · simpa [hmem]
  · simp only [hmem, if_false]
    simp [List.nodup_append, hnd, hmem]

theorem sweepJobs_keys_nodup (m : JobMap)
    (hnd : (m.map Prod.fst).Nodup) :
    ((sweepJobs m).map Prod.fst).Nodup := by
  have h : sweepJobs m
      = m.filter (fun kv => !(isTerminalStatus kv.2.status)) := rfl
  rw [h]
  exact hnd.sublist ((List.filter_sublist m).map Prod.fst)

/-! ## Claim C4 — createdAt across `setJobStatus` calls -/

/-- C4, counterexample: `setJobStatus` does NOT preserve `createdAt` on an
update of an existing id — the row is wholly replaced with
`createdAt: Date.now()`.  Inserting job "job-1" at time 100 and updating it
at time 200 leaves `createdAt = 200`, not the stamped-on-insert 100. -/
theorem c4_counterexample :
    (getJobStatus
        (setJobStatus
          (setJobStatus ([] : JobMap) "job-1" JobStatus.queued "A" none 100)
          "job-1" JobStatus.running "A" none 200)
        "job-1").map JobRow.createdAt ≠ some 100 := by
  decide

/-- C4, amended: `setJobStatus` replaces the whole row for the id, stamping
`createdAt` with the current time on every call (insert and update alike);
rows of every other job id are left unchanged. -/
theorem c4_setJobStatus_restamps_createdAt (m : JobMap) (id : String)
    (st : JobStatus) (src : String) (msg : Option String) (now : Int) :
    getJobStatus (setJobStatus m id st src msg now) id
        = some ⟨src, st, msg, now⟩
      ∧ ∀ id2, id2 ≠ id →
        getJobStatus (setJobStatus m id st src msg now) id2
          = getJobStatus m id2 := by
  refine ⟨getJobStatus_setJobStatus_self m id st src msg now, ?_⟩
  intro id2 h
  exact getJobStatus_setJobStatus_ne m id st src msg now id2 h

/-- Witness for `c4_setJobStatus_restamps_createdAt` at a concrete input. -/
theorem c4_witness :
    getJobStatus (setJobStatus ([] : JobMap) "j" JobStatus.queued "A" none 5) "j"
        = some ⟨"A", JobStatus.queued, none, 5⟩
      ∧ getJobStatus (setJobStatus ([] : JobMap) "j" JobStatus.queued "A" none 5) "k"
        = getJobStatus ([] : JobMap) "k" :=
  ⟨(c4_setJobStatus_restamps_createdAt [] "j" JobStatus.queued "A" none 5).1,
    (c4_setJobStatus_restamps_createdAt [] "j" JobStatus.queued "A" none 5).2
      "k" (by decide)⟩

/-! ## Claim C5 — the sweep and the retention window -/

/-- C5, counterexample: the sweep has no age check at all.  A job that
became `done` with `createdAt = 0` is evicted by a sweep even when the
sweep fires at time 1, an age far below the 10-minute retention window —
refuting "a terminal job younger than the retention window is evicted no
earlier than the retention window". -/
theorem c5_counterexample :
    ((1 : Int) - 0 < retentionWindowMs)
      ∧ getJobStatus
          (sweepJobs [("job-1", ⟨"A", JobStatus.done, none, 0⟩)]) "job-1"
        = none := by
  constructor
  · decide
  · rfl

/-- C5, amended: after a sweep cycle, every job whose status is `done` or
`error` is absent regardless of its age (in particular every one older than
the retention window), and every `queued`/`running` job is still present
with its row unchanged regardless of its age; a terminal job can thus be
evicted before the retention window has elapsed since its creation. -/
theorem c5_sweep_evicts_terminal (m : JobMap) (id : String) (row : JobRow)
    (hnd : (m.map Prod.fst).Nodup)
    (h : getJobStatus m id = some row) :
    getJobStatus (sweepJobs m) id
      = if isTerminalStatus row.status then none else some row := by
  rw [getJobStatus_sweepJobs m id hnd, h]

/-- Witness for `c5_sweep_evicts_terminal` at a concrete input. -/
theorem c5_witness :
    getJobStatus
        (sweepJobs [("a", ⟨"S", JobStatus.done, none, 0⟩),
          ("b", ⟨"S", JobStatus.running, none, 0⟩)]) "b"
      = if isTerminalStatus JobStatus.running then none
        else some ⟨"S", JobStatus.running, none, 0⟩ :=
  c5_sweep_evicts_terminal
    [("a", ⟨"S", JobStatus.done, none, 0⟩),
      ("b", ⟨"S", JobStatus.running, none, 0⟩)]
    "b" ⟨"S", JobStatus.running, none, 0⟩ (by decide) (by decide)

/-! ## Claim C9 — broadcast never propagates -/

/-- C9: `broadcast(event)` never propagates an exception: for every
installed sink (including one that throws) the result is a normal return;
the `try` body invokes the sink with the event exactly when one is
installed, and is a no-op when none is. -/
theorem c9_broadcast_never_throws (sink : Option Sink) (f : Sink) (e : Event) :
    broadcast sink e = Except.ok ()
      ∧ broadcastAttempt (some f) e = f e
      ∧ broadcastAttempt (none : Option Sink) e = Except.ok () := by
  refine ⟨?_, rfl, rfl⟩
  unfold broadcast
  cases broadcastAttempt sink e with
  | ok u => rfl
  | error m => rfl

/-! ## Claim C10 — the since-cutoff filter -/

/-- C10: in the pipeline's since-cutoff step (`fetchAllLocalSources`
part_011:65-67, and the identical filter of `fetchSingleSource`
part_004:96-98, both embedded here as `sinceKeep`): with no `since` nothing
is dropped; with a `since`, an article whose normalized `publishedAt` is
null/absent is always retained, and an article is dropped exactly when its
`publishedAt` is strictly earlier than `since`. -/
theorem c10_since_cutoff_filter (arts : List Article) (s : Int) (a : Article)
    (ha : a ∈ arts) :
    (arts.filter (sinceKeep none) = arts)
      ∧ (a.publishedAt = none → a ∈ arts.filter (sinceKeep (some s)))
      ∧ (a ∉ arts.filter (sinceKeep (some s))
          ↔ ∃ p, a.publishedAt = some p ∧ p < s) := by
  refine ⟨?_, ?_, ?_⟩
  · apply List.filter_eq_self.mpr
    intro x _
    rfl
  · intro hp
    apply List.mem_filter.mpr
    refine ⟨ha, ?_⟩
    simp [sinceKeep, hp]
  · rw [List.mem_filter]
    cases hp : a.publishedAt with
    | none => simp [sinceKeep, ha, hp]
    | some p =>
      simp only [sinceKeep, hp, ha, true_and, decide_eq_true_eq]
      constructor
      · intro h
        exact ⟨p, rfl, by omega⟩
      · rintro ⟨p', hp', hlt⟩
        rw [Option.some_inj] at hp'
        omega

/-- Witness for `c10_since_cutoff_filter` at a concrete input. -/
theorem c10_witness :
    (([⟨"i", "u", "t", none, some 3, none⟩] :
        List Article).filter (sinceKeep none)
      = [⟨"i", "u", "t", none, some 3, none⟩])
      ∧ ((⟨"i", "u", "t", none, some 3, none⟩ : Article).publishedAt = none →
          (⟨"i", "u", "t", none, some 3, none⟩ : Article)
            ∈ ([⟨"i", "u", "t", none, some 3, none⟩] :
                List Article).filter (sinceKeep (some 5)))
      ∧ ((⟨"i", "u", "t", none, some 3, none⟩ : Article)
            ∉ ([⟨"i", "u", "t", none, some 3, none⟩] :
                List Article).filter (sinceKeep (some 5))
          ↔ ∃ p, (⟨"i", "u", "t", none, some 3, none⟩ : Article).publishedAt
              = some p ∧ p < 5) :=
  c10_since_cutoff_filter [⟨"i", "u", "t", none, some 3, none⟩] 5
    ⟨"i", "u", "t", none, some 3, none⟩ (by simp)

/-! ## Claim C3 — blob-store failure and the metadata write -/

/-- C3 (code bug): when the Helia/IPFS singleton is uninitialized,
`add` returns early with `false` and performs NO metadata write at all —
the store is unchanged and the article is not reported as added, although
no duplicate blocked it.  This contradicts the spec ("failure to reach the
blob store must not prevent the metadata write") and the function's own doc
comment (`@returns true if saved, null if skipped`; "adds content to IPFS
... if available").  Note the contrast: when the handle exists and the
blob save itself throws, `add` does proceed to the metadata write. -/
theorem c3_helia_uninit_blocks_metadata_write (env : AddEnv) (st : LocalStore)
    (doc : Article)
    (hh : env.heliaInit = false)
    (hnew : (storeGet st doc.url).isNone) :
    add env st doc false = (AddResult.notSaved, st) := by
  unfold add
  rw [Option.isNone_iff_eq_none] at hnew
  simp [hnew, hh]

/-- Witness for `c3_helia_uninit_blocks_metadata_write`. -/
theorem c3_witness :
    add ⟨false, fun _ => Except.ok none⟩ ⟨[]⟩
        ⟨"i", "u", "t", some "body", none, none⟩ false
      = (AddResult.notSaved, ⟨[]⟩) :=
  c3_helia_uninit_blocks_metadata_write ⟨false, fun _ => Except.ok none⟩ ⟨[]⟩
    ⟨"i", "u", "t", some "body", none, none⟩ rfl (by decide)

/-! ## Helper lemmas: the local store -/

theorem stampIpfs_url (env : AddEnv) (doc : Article) :
    (stampIpfs env doc).url = doc.url := by
  unfold stampIpfs
  split
  · split <;> rfl
  · rfl

theorem find?_mapReplace_ne (l : List Article) (d : Article) (u : String)
    (h : ¬(u = d.url)) :
    (l.map (fun a => if a.url = d.url then d else a)).find?
        (fun a => decide (a.url = u))
      = l.find? (fun a => decide (a.url = u)) := by
  induction l with
  | nil => rfl
  | cons a t ih =>
    by_cases ha : a.url = d.url
    · have h1 : ¬(d.url = u) := fun hh => h hh.symm
      have h2 : ¬(a.url = u) := by rw [ha]; exact h1
      simp [List.find?_cons, ha, h1, h2, ih]
    · by_cases ha2 : a.url = u
      · simp [List.find?_cons, ha, ha2, h]
      · simp [List.find?_cons, ha, ha2, ih]

theorem find?_mapReplace_self (l : List Article) (d : Article)
    (hany : l.any (fun a => decide (a.url = d.url)) = true) :
    (l.map (fun a => if a.url = d.url then d else a)).find?
        (fun a => decide (a.url = d.url))
      = some d := by
  induction l with
  | nil => simp at hany
  | cons a t ih =>
    by_cases ha : a.url = d.url
    · simp [List.find?_cons, ha]
    · have ht : t.any (fun a => decide (a.url = d.url)) = true := by
        rw [List.any_cons] at hany
        simpa [ha] using hany
      simp [List.find?_cons, ha, ih ht]

/-- `db.put` then `db.get`: the written record under its url, everything
else unchanged. -/
theorem storeGet_storePut (st : LocalStore) (d : Article) (u : String) :
    storeGet (storePut st d) u
      = if u = d.url then some d else storeGet st u := by
  unfold storePut storeGet
  by_cases hany : st.docs.any (fun a => decide (a.url = d.url)) = true
  · rw [if_pos hany]
    by_cases hu : u = d.url
    · rw [if_pos hu, hu]
      exact find?_mapReplace_self st.docs d hany
    · rw [if_neg hu]
      exact find?_mapReplace_ne st.docs d u hu
  · rw [if_neg hany]
    show (st.docs ++ [d]).find? (fun a => decide (a.url = u)) = _
    rw [List.find?_append]
    have hall : ∀ x ∈ st.docs, ¬(x.url = d.url) := by
      rw [Bool.not_eq_true, List.any_eq_false] at hany
      intro x hx
      simpa using hany x hx
    by_cases hu : u = d.url
    · rw [if_pos hu]
      have hnone : st.docs.find? (fun a => decide (a.url = u)) = none := by
        apply List.find?_eq_none.mpr
        intro x hx
        simp only [decide_eq_true_eq]
        rw [hu]
        exact hall x hx
      rw [hnone]
      simp [List.find?_cons, hu]
    · rw [if_neg hu]
      have h1 : ¬(d.url = u) := fun hh => hu hh.symm
      simp [List.find?_cons, h1]

/-- Counting helper: on a duplicate-free list, flipping one member from
satisfying the predicate to not satisfying it drops the filtered length by
exactly one. -/
theorem filter_length_split (l : List String) (u : String) (p q : String → Bool)
    (hnd : l.Nodup) (hu : u ∈ l) (hp : p u = true) (hq : q u = false)
    (hagree : ∀ v, v ≠ u → p v = q v) :
    (l.filter p).length = (l.filter q).length + 1 := by
  induction l with
  | nil => cases hu
  | cons a t ih =>
    rw [List.nodup_cons] at hnd
    by_cases hau : a = u
    · subst hau
      have heq : t.filter p = t.filter q := by
        apply List.filter_congr
        intro v hv
        exact hagree v (fun hvu => hnd.1 (hvu ▸ hv))
      rw [List.filter_cons, List.filter_cons, hp, hq]
      simp [heq]
    · have hut : u ∈ t := by
        rcases List.mem_cons.mp hu with h | h
        · exact absurd h.symm hau
        · exact h
      have hpa : p a = q a := hagree a hau
      rw [List.filter_cons, List.filter_cons, hpa]
      cases hpq : q a
      · simp only [Bool.false_eq_true, if_neg]
        exact ih hnd.2 hut
      · simp only [if_pos]
        rw [List.length_cons, List.length_cons, ih hnd.2 hut]

/-! ## Claim C2 — addUnique dedup counting -/

theorem countNewUrls_cons_old (st : LocalStore) (a : Article)
    (rest : List Article) (x : Article)
    (hget : storeGet st a.url = some x) :
    countNewUrls st (a :: rest) = countNewUrls st rest := by
  unfold countNewUrls
  rw [List.map_cons]
  by_cases hm : a.url ∈ rest.map (fun a => a.url)
  · rw [List.dedup_cons_of_mem hm]
  · rw [List.dedup_cons_of_not_mem hm, List.filter_cons]
    simp [hget]

theorem countNewUrls_cons_new (env : AddEnv) (st : LocalStore) (a : Article)
    (rest : List Article)
    (hget : storeGet st a.url = none) :
    countNewUrls st (a :: rest)
      = countNewUrls (storePut st (stampIpfs env a)) rest + 1 := by
  have hget' : ∀ u, storeGet (storePut st (stampIpfs env a)) u
      = if u = a.url then some (stampIpfs env a) else storeGet st u := by
    intro u
    rw [storeGet_storePut, stampIpfs_url]
  unfold countNewUrls
  rw [List.map_cons]
  by_cases hm : a.url ∈ rest.map (fun a => a.url)
  · rw [List.dedup_cons_of_mem hm]
    apply filter_length_split _ a.url _ _ (List.nodup_dedup _)
      (List.mem_dedup.mpr hm)
    · simp [hget]
    · simp [hget']
    · intro v hv
      rw [hget' v, if_neg hv]
  · rw [List.dedup_cons_of_not_mem hm, List.filter_cons]
    have hkeep : (storeGet st a.url).isNone = true := by simp [hget]
    rw [hkeep]
    simp only [if_pos, List.length_cons]
    have heq : (rest.map (fun a => a.url)).dedup.filter
          (fun u => (storeGet st u).isNone)
        = (rest.map (fun a => a.url)).dedup.filter
          (fun u => (storeGet (storePut st (stampIpfs env a)) u).isNone) := by
      apply List.filter_congr
      intro v hv
      have hva : ¬(v = a.url) := fun hh => hm (hh ▸ List.mem_dedup.mp hv)
      rw [hget' v, if_neg hva]
    rw [heq]

/-- C2, amended: provided the Helia/IPFS singleton is initialized (see C3
for the code bug when it is not), `addUnique` over any batch returns
exactly the number of distinct urls in the batch that had no record in the
store at the start of the call — duplicates inside the batch, across
repeated calls, and overlapping batches are silently skipped — and every
url that already had a stored record keeps its record unchanged. -/
theorem c2_addUnique_counts_new_urls (env : AddEnv)
    (hh : env.heliaInit = true) :
    ∀ (batch : List Article) (st : LocalStore),
      (addUnique env st batch).1 = countNewUrls st batch
      ∧ ∀ u, (storeGet st u).isSome →
          storeGet (addUnique env st batch).2 u = storeGet st u := by
  intro batch
  induction batch with
  | nil =>
    intro st
    refine ⟨?_, fun u _ => rfl⟩
    simp [addUnique, countNewUrls]
  | cons a rest ih =>
    intro st
    cases hget : storeGet st a.url with
    | some x =>
      have hadd : add env st a false = (AddResult.skipped, st) := by
        unfold add
        simp [hget]
      have hstep : addUnique env st (a :: rest)
          = ((addUnique env st rest).1, (addUnique env st rest).2) := by
        simp [addUnique, hadd]
      constructor
      · rw [hstep, countNewUrls_cons_old st a rest x hget]
        exact (ih st).1
      · intro u hu
        rw [hstep]
        exact (ih st).2 u hu
    | none =>
      have hadd : add env st a false
          = (AddResult.added, storePut st (stampIpfs env a)) := by
        unfold add
        simp [hget, hh]
      have hstep : addUnique env st (a :: rest)
          = (1 + (addUnique env (storePut st (stampIpfs env a)) rest).1,
             (addUnique env (storePut st (stampIpfs env a)) rest).2) := by
        simp [addUnique, hadd]
      have hget' : ∀ u, storeGet (storePut st (stampIpfs env a)) u
          = if u = a.url then some (stampIpfs env a) else storeGet st u := by
        intro u
        rw [storeGet_storePut, stampIpfs_url]
      constructor
      · rw [hstep, countNewUrls_cons_new env st a rest hget]
        have := (ih (storePut st (stampIpfs env a))).1
        omega
      · intro u hu
        have hua : ¬(u = a.url) := by
          intro hh2
          rw [hh2, hget] at hu
          simp at hu
        have hsame : storeGet (storePut st (stampIpfs env a)) u
            = storeGet st u := by
          rw [hget' u, if_neg hua]
        rw [hstep]
        have hu' : (storeGet (storePut st (stampIpfs env a)) u).isSome := by
          rw [hsame]; exact hu
        rw [(ih (storePut st (stampIpfs env a))).2 u hu', hsame]

/-- Witness for `c2_addUnique_counts_new_urls` at a concrete input: store
holding url "old", batch of a fresh url "new" plus a duplicate of "old". -/
theorem c2_witness :
    ((addUnique ⟨true, fun _ => Except.ok none⟩
        ⟨[⟨"i0", "old", "t0", none, none, none⟩]⟩
        [⟨"i1", "new", "t1", none, none, none⟩,
         ⟨"i2", "old", "t2", none, none, none⟩]).1
      = countNewUrls ⟨[⟨"i0", "old", "t0", none, none, none⟩]⟩
          [⟨"i1", "new", "t1", none, none, none⟩,
           ⟨"i2", "old", "t2", none, none, none⟩])
    ∧ storeGet (addUnique ⟨true, fun _ => Except.ok none⟩
        ⟨[⟨"i0", "old", "t0", none, none, none⟩]⟩
        [⟨"i1", "new", "t1", none, none, none⟩,
         ⟨"i2", "old", "t2", none, none, none⟩]).2 "old"
      = storeGet ⟨[⟨"i0", "old", "t0", none, none, none⟩]⟩ "old" :=
  ⟨(c2_addUnique_counts_new_urls ⟨true, fun _ => Except.ok none⟩ rfl
      [⟨"i1", "new", "t1", none, none, none⟩,
       ⟨"i2", "old", "t2", none, none, none⟩]
      ⟨[⟨"i0", "old", "t0", none, none, none⟩]⟩).1,
   (c2_addUnique_counts_new_urls ⟨true, fun _ => Except.ok none⟩ rfl
      [⟨"i1", "new", "t1", none, none, none⟩,
       ⟨"i2", "old", "t2", none, none, none⟩]
      ⟨[⟨"i0", "old", "t0", none, none, none⟩]⟩).2 "old" (by decide)⟩

/-- C2, counterexample to the claim as stated: with the Helia/IPFS
singleton uninitialized, `add` returns `false` without writing, so a call
with one genuinely new url returns 0, not 1. -/
theorem c2_counterexample :
    (addUnique ⟨false, fun _ => Except.ok none⟩ ⟨[]⟩
        [⟨"i", "u", "t", none, none, none⟩]).1
      ≠ countNewUrls ⟨[]⟩ [⟨"i", "u", "t", none, none, none⟩] := by
  decide

/-! ## Claim C1 — per-source isolation of fetchAllLocalSources -/

/-- One step of the source loop as a function on the accumulator. -/
def stepSource (env : PipelineEnv) (targetLanguage : String)
    (since : Option Int) (skipTranslation : Bool)
    (acc : FetchResult) (s : Source) : FetchResult :=
  let r := processSource env s targetLanguage since skipTranslation
  ⟨acc.articles ++ r.1, acc.errors ++ r.2⟩

theorem fetchAll_eq_foldl (env : PipelineEnv) (sources : List Source)
    (tl : String) (since : Option Int) (skip : Bool) :
    fetchAllLocalSources env sources tl since skip
      = (sources.filter (fun s => s.enabled)).foldl
          (stepSource env tl since skip) ⟨[], []⟩ := rfl

theorem foldl_stepSource_acc (env : PipelineEnv) (tl : String)
    (since : Option Int) (skip : Bool) (l : List Source) :
    ∀ acc : FetchResult,
      l.foldl (stepSource env tl since skip) acc
        = ⟨acc.articles
            ++ (l.foldl (stepSource env tl since skip) ⟨[], []⟩).articles,
           acc.errors
            ++ (l.foldl (stepSource env tl since skip) ⟨[], []⟩).errors⟩ := by
  induction l with
  | nil =>
    intro acc
    simp
  | cons s t ih =>
    intro acc
    rw [List.foldl_cons, List.foldl_cons, ih (stepSource env tl since skip acc s),
      ih (stepSource env tl since skip ⟨[], []⟩ s)]
    simp [stepSource]

theorem processSource_of_fails (env : PipelineEnv) (src : Source)
    (tl : String) (since : Option Int) (skip : Bool)
    (hf : failsForSource env src) :
    ∃ msg, processSource env src tl since skip = ([], [⟨src.endpoint, msg⟩]) := by
  rcases hf with ⟨m, hm⟩ | ⟨status, body, hm⟩ | ⟨status, raw, hm, hp⟩
  · exact ⟨m, by simp [processSource, sourceBody, hm]⟩
  · refine ⟨"HTTP error " ++ toString status ++ " for " ++ src.endpoint, ?_⟩
    simp [processSource, sourceBody, hm]
  · refine ⟨"Parser did not return an array for " ++ src.endpoint, ?_⟩
    simp [processSource, sourceBody, hm, hp]

/-- C1: one source that always fails its HTTP fetch (throw or non-2xx
status) or whose parser does not return an array never throws out of
`fetchAllLocalSources` (the embedding returns a plain `FetchResult`; the
per-source catch is explicit in `processSource`): the result carries
exactly the articles the surrounding enabled sources produce, plus one
error entry for the failing source's endpoint between them, so the errors
array has length at least 1 and contains an entry with that endpoint. -/
theorem c1_fetchAll_isolates_failing_source (env : PipelineEnv)
    (pre post : List Source) (src : Source) (tl : String)
    (since : Option Int) (skip : Bool)
    (hen : src.enabled = true)
    (hf : failsForSource env src) :
    (∃ msg,
      fetchAllLocalSources env (pre ++ src :: post) tl since skip
        = ⟨(fetchAllLocalSources env pre tl since skip).articles
            ++ (fetchAllLocalSources env post tl since skip).articles,
           (fetchAllLocalSources env pre tl since skip).errors
            ++ ⟨src.endpoint, msg⟩
              :: (fetchAllLocalSources env post tl since skip).errors⟩)
    ∧ (∃ e ∈ (fetchAllLocalSources env (pre ++ src :: post) tl since skip).errors,
        e.endpoint = src.endpoint)
    ∧ 1 ≤ (fetchAllLocalSources env (pre ++ src :: post) tl since skip).errors.length := by
  obtain ⟨msg, hproc⟩ := processSource_of_fails env src tl since skip hf
  have hmain : fetchAllLocalSources env (pre ++ src :: post) tl since skip
      = ⟨(fetchAllLocalSources env pre tl since skip).articles
          ++ (fetchAllLocalSources env post tl since skip).articles,
         (fetchAllLocalSources env pre tl since skip).errors
          ++ ⟨src.endpoint, msg⟩
            :: (fetchAllLocalSources env post tl since skip).errors⟩ := by
    rw [fetchAll_eq_foldl, List.filter_append, List.filter_cons]
    rw [fetchAll_eq_foldl, fetchAll_eq_foldl]
    simp only [hen, if_pos]
    rw [List.foldl_append, List.foldl_cons]
    rw [foldl_stepSource_acc env tl since skip _
      (stepSource env tl since skip
        ((pre.filter (fun s => s.enabled)).foldl
          (stepSource env tl since skip) ⟨[], []⟩) src)]
    simp [stepSource, hproc]
  refine ⟨⟨msg, hmain⟩, ?_, ?_⟩
  · refine ⟨⟨src.endpoint, msg⟩, ?_, rfl⟩
    rw [hmain]
    simp
  · rw [hmain]
    simp
    omega

/-- Witness for `c1_fetchAll_isolates_failing_source`: a single enabled
source whose fetch always throws. -/
theorem c1_witness :
    ((⟨"A", "http://a", true, []⟩ : Source).enabled = true
      ∧ failsForSource
          ⟨fun _ => HttpOut.threw "boom", fun _ _ => ParseOut.notArray,
            fun _ _ => ⟨"", "", "", none, none, none⟩, fun p => p,
            fun _ _ => Except.error "no ai", fun l => l, fun _ => none⟩
          ⟨"A", "http://a", true, []⟩)
    ∧ (∃ e ∈ (fetchAllLocalSources
          ⟨fun _ => HttpOut.threw "boom", fun _ _ => ParseOut.notArray,
            fun _ _ => ⟨"", "", "", none, none, none⟩, fun p => p,
            fun _ _ => Except.error "no ai", fun l => l, fun _ => none⟩
          ([] ++ (⟨"A", "http://a", true, []⟩ : Source) :: []) "en" none
          true).errors,
        e.endpoint = (⟨"A", "http://a", true, []⟩ : Source).endpoint) :=
  ⟨⟨rfl, Or.inl ⟨"boom", rfl⟩⟩,
    (c1_fetchAll_isolates_failing_source
      ⟨fun _ => HttpOut.threw "boom", fun _ _ => ParseOut.notArray,
        fun _ _ => ⟨"", "", "", none, none, none⟩, fun p => p,
        fun _ _ => Except.error "no ai", fun l => l, fun _ => none⟩
      [] [] ⟨"A", "http://a", true, []⟩ "en" none true rfl
      (Or.inl ⟨"boom", rfl⟩)).2.1⟩

/-! ## Claim C6 — monotonic job status for the single-source fetch job -/

theorem applyOps_concat (id src : String) (ops : List JobOp) (op : JobOp) :
    applyOps id src (ops ++ [op]) []
      = applyOp id src (applyOps id src ops []) op := by
  unfold applyOps
  rw [List.foldl_append]
  rfl

theorem writesOf_append (xs ys : List JobOp) :
    writesOf (xs ++ ys) = writesOf xs ++ writesOf ys := by
  unfold writesOf
  rw [List.filterMap_append]

/-- Invariant: starting from the empty map, the job map keeps duplicate-free
keys, and the status `getJobStatus` observes for the job is either absent or
exactly the last status written so far. -/
theorem observed_spec (id src : String) (ops : List JobOp) :
    ((applyOps id src ops []).map Prod.fst).Nodup
    ∧ (observedStatus id src ops = none
        ∨ observedStatus id src ops = (writesOf ops).getLast?) := by
  induction ops using List.reverseRecOn with
  | nil => exact ⟨List.nodup_nil, Or.inl rfl⟩
  | append_singleton ops op ih =>
    have happ := applyOps_concat id src ops op
    cases op with
    | write st msg now =>
      constructor
      · rw [happ]
        exact mapSet_keys_nodup _ _ _ ih.1
      · right
        have hw : writesOf (ops ++ [JobOp.write st msg now])
            = writesOf ops ++ [st] := by
          rw [writesOf_append]
          rfl
        have hobs : observedStatus id src (ops ++ [JobOp.write st msg now])
            = (getJobStatus (setJobStatus (applyOps id src ops []) id st src
                msg now) id).map (fun r => r.status) := by
          rw [observedStatus, happ]
          rfl
        rw [hw, List.getLast?_concat, hobs, getJobStatus_setJobStatus_self]
        rfl
    | sweep =>
      constructor
      · rw [happ]
        exact sweepJobs_keys_nodup _ ih.1
      · have hw : writesOf (ops ++ [JobOp.sweep]) = writesOf ops := by
          rw [writesOf_append]
          simp [writesOf]
        rw [hw]
        have hobs : observedStatus id src (ops ++ [JobOp.sweep])
            = (getJobStatus (sweepJobs (applyOps id src ops [])) id).map
                (fun r => r.status) := by
          rw [observedStatus, happ]
          rfl
        rw [hobs, getJobStatus_sweepJobs _ id ih.1]
        cases hrow : getJobStatus (applyOps id src ops []) id with
        | none =>
          left
          simp
        | some row =>
          by_cases hterm : isTerminalStatus row.status
          · left
            simp [hterm]
          · right
            rcases ih.2 with h | h
            · rw [observedStatus, hrow] at h
              cases h
            · rw [observedStatus, hrow] at h
              rw [← h]
              simp [hterm]

theorem rank_walk_helper (ok : Bool) (i j : Nat) (hij : i ≤ j) (hj : j ≤ 3)
    (s s' : JobStatus)
    (hs : ((handlerWrites ok).take i).getLast? = some s)
    (hs' : ((handlerWrites ok).take j).getLast? = some s') :
    statusRank s ≤ statusRank s' ∧ (isTerminalStatus s = true → s' = s) := by
  interval_cases j <;> interval_cases i <;> cases ok <;>
    simp_all [handlerWrites] <;> subst_vars <;> decide

/-- C6: for a job written exactly as `fetchSingleLocalSourceHandler` writes
it (`queued`, then `running`, then `done` or `error`), with background
sweeps interleaved at arbitrary points, any two observations through
`getJobStatus` — the first after a prefix `p` of the lifetime's operations,
the second after the longer prefix `p ++ r1` — see statuses walking
queued→running→{done|error} forward only, and a terminal status is never
followed by a different one. -/
theorem c6_job_status_monotonic (ok : Bool) (id src : String)
    (p r1 r2 : List JobOp) (s s' : JobStatus)
    (hw : writesOf (p ++ r1 ++ r2) = handlerWrites ok)
    (h1 : observedStatus id src p = some s)
    (h2 : observedStatus id src (p ++ r1) = some s') :
    statusRank s ≤ statusRank s' ∧ (isTerminalStatus s = true → s' = s) := by
  have hw2 : writesOf p ++ writesOf r1 ++ writesOf r2 = handlerWrites ok := by
    rw [← writesOf_append, ← writesOf_append]
    exact hw
  have hs : (writesOf p).getLast? = some s := by
    rcases (observed_spec id src p).2 with h | h
    · rw [h1] at h
      cases h
    · rw [h1] at h
      exact h.symm
  have hs' : (writesOf (p ++ r1)).getLast? = some s' := by
    rcases (observed_spec id src (p ++ r1)).2 with h | h
    · rw [h2] at h
      cases h
    · rw [h2] at h
      exact h.symm
  rw [writesOf_append] at hs'
  have htake1 : (handlerWrites ok).take (writesOf p).length = writesOf p := by
    have hsplit : writesOf p ++ (writesOf r1 ++ writesOf r2)
        = handlerWrites ok := by
      rw [← hw2, List.append_assoc]
    rw [← hsplit]
    exact List.take_left _ _
  have htake2 : (handlerWrites ok).take (writesOf p ++ writesOf r1).length
      = writesOf p ++ writesOf r1 := by
    rw [← hw2]
    exact List.take_left _ _
  have hlen3 : (writesOf p ++ writesOf r1).length ≤ 3 := by
    have hl := congrArg List.length hw2
    have hH : (handlerWrites ok).length = 3 := by cases ok <;> rfl
    rw [hH] at hl
    simp only [List.length_append] at hl ⊢
    omega
  have hij : (writesOf p).length ≤ (writesOf p ++ writesOf r1).length := by
    simp only [List.length_append]
    omega
  exact rank_walk_helper ok _ _ hij hlen3 s s'
    (by rw [htake1]; exact hs) (by rw [htake2]; exact hs')

/-- Witness for `c6_job_status_monotonic`: a successful job observed after
its `queued` write and again after `running` and an interleaved sweep. -/
theorem c6_witness :
    statusRank JobStatus.queued ≤ statusRank JobStatus.running
      ∧ (isTerminalStatus JobStatus.queued = true
          → JobStatus.running = JobStatus.queued) :=
  c6_job_status_monotonic true "j" "S"
    [JobOp.write JobStatus.queued none 0]
    [JobOp.write JobStatus.running none 1, JobOp.sweep]
    [JobOp.write JobStatus.done none 2]
    JobStatus.queued JobStatus.running
    (by decide) (by decide) (by decide)

/-! ## Helper lemmas: source-registry merge -/

theorem overrideOf_name (ps : List Source) (d : Source) :
    (overrideOf ps d).name = d.name := by
  unfold overrideOf
  cases h : ps.find? (fun s => decide (s.name = d.name)) with
  | none => rfl
  | some p =>
    have hp := List.find?_some h
    simp only [decide_eq_true_eq] at hp
    simpa [mergeSrc] using hp

theorem find?_name_of_pres (f : Source → Source) (l : List Source) (d : Source)
    (hpres : ∀ s ∈ l, (f s).name = s.name)
    (hnd : (l.map (fun s => s.name)).Nodup) (hd : d ∈ l) :
    (l.map f).find? (fun s => decide (s.name = d.name)) = some (f d) := by
  induction l with
  | nil => cases hd
  | cons a t ih =>
    rw [List.map_cons, List.nodup_cons] at hnd
    rw [List.map_cons, List.find?_cons]
    by_cases had : a = d
    · subst had
      simp [hpres a (List.mem_cons_self a t)]
    · have hdt : d ∈ t := by
        rcases List.mem_cons.mp hd with h | h
        · exact absurd h.symm had
        · exact h
      have hname : ¬((f a).name = d.name) := by
        rw [hpres a (List.mem_cons_self a t)]
        intro hc
        apply hnd.1
        rw [hc]
        exact List.mem_map_of_mem (fun s => s.name) hdt
      rw [decide_eq_false hname]
      exact ih (fun s hs => hpres s (List.mem_cons_of_mem a hs)) hnd.2 hdt

theorem find?_name_self (l : List Source) (p : Source)
    (hnd : (l.map (fun s => s.name)).Nodup) (hmem : p ∈ l) :
    l.find? (fun s => decide (s.name = p.name)) = some p := by
  have h := find?_name_of_pres (fun s => s) l p (fun _ _ => rfl) hnd hmem
  simpa using h

theorem map_eq_self_of (l : List (String × String))
    (f : String × String → String × String) (h : ∀ x ∈ l, f x = x) :
    l.map f = l :=
  (List.map_congr_left h).trans (List.map_id l)

theorem lookupField_eq_some_of_nodup (a : List (String × String))
    (kv : String × String)
    (hnd : (a.map Prod.fst).Nodup) (hmem : kv ∈ a) :
    lookupField a kv.1 = some kv.2 := by
  induction a with
  | nil => cases hmem
  | cons x t ih =>
    rw [List.map_cons, List.nodup_cons] at hnd
    rcases List.mem_cons.mp hmem with h | h
    · subst h
      simp [lookupField, List.find?_cons]
    · have hx : ¬(x.1 = kv.1) := by
        intro hc
        apply hnd.1
        rw [hc]
        exact List.mem_map_of_mem Prod.fst h
      have ht := ih hnd.2 h
      unfold lookupField at ht ⊢
      simpa [List.find?_cons, hx] using ht

theorem lookupField_isSome_of_mem (a : List (String × String)) (k : String)
    (h : k ∈ a.map Prod.fst) : (lookupField a k).isSome := by
  induction a with
  | nil => cases h
  | cons x t ih =>
    rw [List.map_cons, List.mem_cons] at h
    by_cases hx : x.1 = k
    · simp [lookupField, List.find?_cons, hx]
    · rcases h with h | h
      · exact absurd h.symm hx
      · have ht := ih h
        unfold lookupField at ht ⊢
        simpa [List.find?_cons, hx] using ht

theorem find?_fst_map_of_nodup (g : String × String → String × String)
    (a : List (String × String)) (kv : String × String)
    (hpres : ∀ x ∈ a, (g x).1 = x.1)
    (hnd : (a.map Prod.fst).Nodup) (hmem : kv ∈ a) :
    (a.map g).find? (fun x => decide (x.1 = kv.1)) = some (g kv) := by
  induction a with
  | nil => cases hmem
  | cons x t ih =>
    rw [List.map_cons, List.nodup_cons] at hnd
    rw [List.map_cons, List.find?_cons]
    by_cases hxk : x = kv
    · subst hxk
      simp [hpres x (List.mem_cons_self x t)]
    · have hkt : kv ∈ t := by
        rcases List.mem_cons.mp hmem with h | h
        · exact absurd h.symm hxk
        · exact h
      have hkey : ¬((g x).1 = kv.1) := by
        rw [hpres x (List.mem_cons_self x t)]
        intro hc
        apply hnd.1
        rw [hc]
        exact List.mem_map_of_mem Prod.fst hkt
      simp only [decide_eq_false hkey]
      exact ih (fun s hs => hpres s (List.mem_cons_of_mem x hs)) hnd.2 hkt

theorem lookupField_unionFields_left (a b : List (String × String))
    (kv : String × String)
    (hnd : (a.map Prod.fst).Nodup) (hmem : kv ∈ a) :
    lookupField (unionFields a b) kv.1
      = some ((lookupField b kv.1).getD kv.2) := by
  have hfind := find?_fst_map_of_nodup
    (fun kv' => (kv'.1, (lookupField b kv'.1).getD kv'.2)) a kv
    (fun _ _ => rfl) hnd hmem
  calc lookupField (unionFields a b) kv.1
      = (((a.map (fun kv' => (kv'.1, (lookupField b kv'.1).getD kv'.2))).find?
            (fun x => decide (x.1 = kv.1))).or
          ((b.filter (fun kv' => (lookupField a kv'.1).isNone)).find?
            (fun x => decide (x.1 = kv.1)))).map (fun x => x.2) := by
        rw [← List.find?_append]
        rfl
    _ = some ((lookupField b kv.1).getD kv.2) := by
        rw [hfind]
        rfl

theorem unionFields_self (a : List (String × String))
    (hnd : (a.map Prod.fst).Nodup) : unionFields a a = a := by
  unfold unionFields
  have h1 : a.filter (fun kv => (lookupField a kv.1).isNone) = [] := by
    rw [List.filter_eq_nil_iff]
    intro kv hkv
    have hs := lookupField_isSome_of_mem a kv.1
      (List.mem_map_of_mem Prod.fst hkv)
    intro hnone
    rw [Option.isNone_iff_eq_none] at hnone
    rw [hnone] at hs
    cases hs
  rw [h1, List.append_nil]
  apply map_eq_self_of
  intro kv hkv
  rw [lookupField_eq_some_of_nodup a kv hnd hkv]
  exact Prod.mk.eta

theorem unionFields_absorb (a b : List (String × String))
    (hnd : (a.map Prod.fst).Nodup) :
    unionFields a (unionFields a b) = unionFields a b := by
  have hmap : a.map (fun kv =>
        (kv.1, (lookupField (unionFields a b) kv.1).getD kv.2))
      = a.map (fun kv => (kv.1, (lookupField b kv.1).getD kv.2)) := by
    apply List.map_congr_left
    intro kv hkv
    rw [lookupField_unionFields_left a b kv hnd hkv]
    rfl
  have hfilt : (unionFields a b).filter (fun kv => (lookupField a kv.1).isNone)
      = b.filter (fun kv => (lookupField a kv.1).isNone) := by
    show (a.map (fun kv => (kv.1, (lookupField b kv.1).getD kv.2))
        ++ b.filter (fun kv => (lookupField a kv.1).isNone)).filter
          (fun kv => (lookupField a kv.1).isNone)
      = b.filter (fun kv => (lookupField a kv.1).isNone)
    rw [List.filter_append]
    have h1 : (a.map (fun kv => (kv.1, (lookupField b kv.1).getD kv.2))).filter
        (fun kv => (lookupField a kv.1).isNone) = [] := by
      rw [List.filter_eq_nil_iff]
      intro x hx
      obtain ⟨kv, hkv, hxeq⟩ := List.mem_map.mp hx
      have hs := lookupField_isSome_of_mem a kv.1
        (List.mem_map_of_mem Prod.fst hkv)
      intro hnone
      rw [← hxeq] at hnone
      simp only [Option.isNone_iff_eq_none] at hnone
      rw [hnone] at hs
      cases hs
    have h2 : (b.filter (fun kv => (lookupField a kv.1).isNone)).filter
        (fun kv => (lookupField a kv.1).isNone)
      = b.filter (fun kv => (lookupField a kv.1).isNone) :=
      List.filter_eq_self.mpr (fun x hx => (List.mem_filter.mp hx).2)
    rw [h1, h2, List.nil_append]
  calc unionFields a (unionFields a b)
      = a.map (fun kv =>
          (kv.1, (lookupField (unionFields a b) kv.1).getD kv.2))
        ++ (unionFields a b).filter
          (fun kv => (lookupField a kv.1).isNone) := rfl
    _ = a.map (fun kv => (kv.1, (lookupField b kv.1).getD kv.2))
        ++ b.filter (fun kv => (lookupField a kv.1).isNone) := by
        rw [hmap, hfilt]
    _ = unionFields a b := rfl

theorem mergeSrc_self (d : Source)
    (hnd : (d.extra.map Prod.fst).Nodup) : mergeSrc d d = d := by
  cases d with
  | mk n e en ex =>
    simp only [mergeSrc]
    rw [unionFields_self ex hnd]

theorem mergeSrc_absorb (d p : Source)
    (hnd : (d.extra.map Prod.fst).Nodup) :
    mergeSrc d (mergeSrc d p) = mergeSrc d p := by
  simp only [mergeSrc]
  rw [unionFields_absorb d.extra p.extra hnd]

/-! ## Claim C7 — shape of the merged source list -/

theorem getMergedSources_names (ds ps : List Source) :
    (getMergedSources ds ps).map (fun s => s.name)
      = ds.map (fun s => s.name)
        ++ (ps.filter (fun s =>
            !(ds.any (fun d => decide (d.name = s.name))))).map
          (fun s => s.name) := by
  unfold getMergedSources
  rw [List.map_append, List.map_map]
  congr 1
  apply List.map_congr_left
  intro d _
  exact overrideOf_name ps d

/-- C7: with source names unique within the defaults list and within the
persisted list (the data model declares `name` a unique key), the merged
list's names are the default names in default order followed by the names
of the persisted extras in persisted order; each default with a same-named
persisted override contributes their shallow merge (persisted fields
winning, `mergeSrc`); a default with no override and a persisted source
matching no default appear unchanged; and no two sources of the result
share a name. -/
theorem c7_getMergedSources_spec (ds ps : List Source)
    (hd : (ds.map (fun s => s.name)).Nodup)
    (hp : (ps.map (fun s => s.name)).Nodup) :
    ((getMergedSources ds ps).map (fun s => s.name)
        = ds.map (fun s => s.name)
          ++ (ps.filter (fun s =>
              !(ds.any (fun d => decide (d.name = s.name))))).map
            (fun s => s.name))
    ∧ (∀ d ∈ ds, ∀ p ∈ ps, p.name = d.name
        → mergeSrc d p ∈ getMergedSources ds ps)
    ∧ (∀ d ∈ ds, (∀ p ∈ ps, p.name ≠ d.name) → d ∈ getMergedSources ds ps)
    ∧ (∀ p ∈ ps, (∀ d ∈ ds, d.name ≠ p.name) → p ∈ getMergedSources ds ps)
    ∧ ((getMergedSources ds ps).map (fun s => s.name)).Nodup := by
  refine ⟨getMergedSources_names ds ps, ?_, ?_, ?_, ?_⟩
  · intro d hdm p hpm hname
    have hov : overrideOf ps d = mergeSrc d p := by
      unfold overrideOf
      rw [← hname, find?_name_self ps p hp hpm]
    apply List.mem_append_left
    rw [← hov]
    exact List.mem_map_of_mem (overrideOf ps) hdm
  · intro d hdm hno
    have hov : overrideOf ps d = d := by
      unfold overrideOf
      have hnone : ps.find? (fun s => decide (s.name = d.name)) = none := by
        apply List.find?_eq_none.mpr
        intro p hpm
        simp only [decide_eq_true_eq]
        exact hno p hpm
      rw [hnone]
    apply List.mem_append_left
    rw [← hov]
    exact List.mem_map_of_mem (overrideOf ps) hdm
  · intro p hpm hno
    apply List.mem_append_right
    apply List.mem_filter.mpr
    refine ⟨hpm, ?_⟩
    have hany : ds.any (fun d => decide (d.name = p.name)) = false := by
      rw [List.any_eq_false]
      intro d hdm
      simp only [decide_eq_true_eq]
      exact hno d hdm
    rw [hany]
    rfl
  · rw [getMergedSources_names]
    rw [List.nodup_append]
    refine ⟨hd, ?_, ?_⟩
    · exact hp.sublist ((ps.filter_sublist).map (fun s => s.name))
    · intro x hx1 hx2
      obtain ⟨s, hs, hsx⟩ := List.mem_map.mp hx2
      have hsf := List.mem_filter.mp hs
      obtain ⟨d, hdm, hdx⟩ := List.mem_map.mp hx1
      have hne : ds.any (fun d2 => decide (d2.name = s.name)) = false := by
        have := hsf.2
        cases hb : ds.any (fun d2 => decide (d2.name = s.name))
        · rfl
        · rw [hb] at this
          simp at this
      rw [List.any_eq_false] at hne
      have := hne d hdm
      simp only [decide_eq_true_eq] at this
      exact this (hdx.trans hsx.symm)

/-- Witness for `c7_getMergedSources_spec` on concrete lists. -/
theorem c7_witness :
    ((getMergedSources
        [⟨"A", "ea", true, [("k", "1")]⟩]
        [⟨"A", "pa", false, [("x", "2")]⟩, ⟨"B", "pb", true, []⟩]).map
          (fun s => s.name)
      = ([⟨"A", "ea", true, [("k", "1")]⟩] : List Source).map (fun s => s.name)
        ++ (([⟨"A", "pa", false, [("x", "2")]⟩, ⟨"B", "pb", true, []⟩] :
            List Source).filter (fun s =>
              !(([⟨"A", "ea", true, [("k", "1")]⟩] : List Source).any
                (fun d => decide (d.name = s.name))))).map (fun s => s.name))
    ∧ ((getMergedSources
        [⟨"A", "ea", true, [("k", "1")]⟩]
        [⟨"A", "pa", false, [("x", "2")]⟩, ⟨"B", "pb", true, []⟩]).map
          (fun s => s.name)).Nodup :=
  ⟨(c7_getMergedSources_spec
      [⟨"A", "ea", true, [("k", "1")]⟩]
      [⟨"A", "pa", false, [("x", "2")]⟩, ⟨"B", "pb", true, []⟩]
      (by decide) (by decide)).1,
   (c7_getMergedSources_spec
      [⟨"A", "ea", true, [("k", "1")]⟩]
      [⟨"A", "pa", false, [("x", "2")]⟩, ⟨"B", "pb", true, []⟩]
      (by decide) (by decide)).2.2.2.2⟩

/-! ## Claim C8 — idempotence of the merge -/

/-- C8: merging the defaults with the result of a previous merge of the
same defaults and persisted list gives exactly the previous result,
provided default names are unique (the data model's `name` unique key) and
each default's untyped field object has the duplicate-free keys every JS
object has. -/
theorem c8_merge_idempotent (ds ps : List Source)
    (hd : (ds.map (fun s => s.name)).Nodup)
    (hwf : ∀ s ∈ ds, ((s.extra.map Prod.fst)).Nodup) :
    getMergedSources ds (getMergedSources ds ps) = getMergedSources ds ps := by
  set M := getMergedSources ds ps with hM
  have hA : ds.map (overrideOf M) = ds.map (overrideOf ps) := by
    apply List.map_congr_left
    intro d hdm
    have hfind : M.find? (fun s => decide (s.name = d.name))
        = some (overrideOf ps d) := by
      rw [hM, getMergedSources, List.find?_append,
        find?_name_of_pres (overrideOf ps) ds d
          (fun s _ => overrideOf_name ps s) hd hdm]
      rfl
    show overrideOf M d = overrideOf ps d
    rw [overrideOf, hfind]
    cases hcase : ps.find? (fun s => decide (s.name = d.name)) with
    | some p =>
      have hov : overrideOf ps d = mergeSrc d p := by
        rw [overrideOf, hcase]
      rw [hov]
      exact mergeSrc_absorb d p (hwf d hdm)
    | none =>
      have hov : overrideOf ps d = d := by
        rw [overrideOf, hcase]
      rw [hov]
      exact mergeSrc_self d (hwf d hdm)
  have hB : M.filter (fun s => !(ds.any (fun d => decide (d.name = s.name))))
      = ps.filter (fun s => !(ds.any (fun d => decide (d.name = s.name)))) := by
    rw [hM, getMergedSources, List.filter_append]
    have h1 : (ds.map (overrideOf ps)).filter
        (fun s => !(ds.any (fun d => decide (d.name = s.name)))) = [] := by
      rw [List.filter_eq_nil_iff]
      intro x hx
      obtain ⟨d, hdm, hdx⟩ := List.mem_map.mp hx
      have hany : ds.any (fun d2 => decide (d2.name = x.name)) = true := by
        rw [List.any_eq_true]
        refine ⟨d, hdm, ?_⟩
        rw [← hdx, overrideOf_name]
        exact decide_eq_true rfl
      rw [hany]
      simp
    have h2 : (ps.filter (fun s =>
          !(ds.any (fun d => decide (d.name = s.name))))).filter
        (fun s => !(ds.any (fun d => decide (d.name = s.name))))
      = ps.filter (fun s => !(ds.any (fun d => decide (d.name = s.name)))) :=
      List.filter_eq_self.mpr (fun x hx => (List.mem_filter.mp hx).2)
    rw [h1, h2, List.nil_append]
  show ds.map (overrideOf M)
      ++ M.filter (fun s => !(ds.any (fun d => decide (d.name = s.name)))) = M
  rw [hA, hB, hM]
  rfl

/-- Witness for `c8_merge_idempotent` on concrete lists. -/
theorem c8_witness :
    getMergedSources [⟨"A", "ea", true, [("k", "1")]⟩]
        (getMergedSources [⟨"A", "ea", true, [("k", "1")]⟩]
          [⟨"A", "pa", false, [("x", "2")]⟩, ⟨"B", "pb", true, []⟩])
      = getMergedSources [⟨"A", "ea", true, [("k", "1")]⟩]
          [⟨"A", "pa", false, [("x", "2")]⟩, ⟨"B", "pb", true, []⟩] :=
  c8_merge_idempotent [⟨"A", "ea", true, [("k", "1")]⟩]
    [⟨"A", "pa", false, [("x", "2")]⟩, ⟨"B", "pb", true, []⟩]
    (by decide) (by decide)

end NousNode
